import Mathlib

/-!
Shallow embedding of the core of the lol-html streaming HTML tokenizer:
the tag-name fingerprint (`LocalNameHash`, src/html/local_name.rs), the
`LocalName` sum type, the `Comment::set_text` rewritable unit, the raw-text
end-tag scanning states of the tokenizer state machine
(src/tokenizer/syntax/text/rawtext.rs), the bookmark/resumption plumbing
(src/tokenizer/state_machine/mod.rs) and the token/attribute actions
(src/tokenizer/state_machine_dsl/action/mod.rs).

Machine integers (`u64`) are modelled as `Nat` with explicit reduction
modulo `2 ^ 64` where the source can overflow; byte strings are lists of
byte values (`List Nat`, each element a value of a `u8`).
-/

set_option maxRecDepth 4000

namespace LolHtml

/-! ## Fingerprint (`LocalNameHash`), from src/html/local_name.rs -/

/-- The modulus of 64-bit machine arithmetic. -/
def U64 : Nat := 2 ^ 64

/-- `EMPTY_HASH`: the self-invalidation sentinel `!0u64` (all 64 bits set). -/
def EMPTY_HASH : Nat := 2 ^ 64 - 1

/-- The byte class of the source arm `b'a'..=b'z' | b'A'..=b'Z'`. -/
def isAsciiAlpha (ch : Nat) : Bool := (97 ≤ ch && ch ≤ 122) || (65 ≤ ch && ch ≤ 90)

/-- The byte class of the source arm `b'1'..=b'6'`. -/
def isDigit16 (ch : Nat) : Bool := 49 ≤ ch && ch ≤ 54

/-- A byte of the admissible fingerprint alphabet `{A-Z, a-z, 1-6}`. -/
def isAdmissible (ch : Nat) : Bool := isAsciiAlpha ch || isDigit16 ch

/-- `LocalNameHash::update`: overflow check on the top 5 bits, then the
5-bit-packed encoding of letters (codes 6..=31) and digits 1-6
(codes 0..=5); any other byte invalidates the hash. -/
def update (h ch : Nat) : Nat :=
  if h >>> 59 == 0 then
    if isAsciiAlpha ch then ((h <<< 5) ||| ((ch &&& 0x1F) + 5)) % U64
    else if isDigit16 ch then ((h <<< 5) ||| ((ch &&& 0x0F) - 1)) % U64
    else EMPTY_HASH
  else EMPTY_HASH

/-- `LocalNameHash::is_empty`: true iff the hash is the invalid sentinel. -/
def is_empty (h : Nat) : Bool := h == EMPTY_HASH

/-- `impl From<&str> for LocalNameHash`: fold `update` over the bytes of the
string, starting from `LocalNameHash::new()` (that is, `0`). -/
def fromStr (s : List Nat) : Nat := s.foldl update 0

/-! ### Basic lemmas about `update` -/

theorem update_of_empty (ch : Nat) : update EMPTY_HASH ch = EMPTY_HASH := by
  have hg : (EMPTY_HASH >>> 59 == 0) = false := by decide
  simp [update, hg]

theorem foldl_update_empty (l : List Nat) :
    l.foldl update EMPTY_HASH = EMPTY_HASH := by
  induction l with
  | nil => rfl
  | cons c t ih => simpa [List.foldl_cons, update_of_empty] using ih

theorem update_not_admissible {ch : Nat} (h : Nat) (hna : isAdmissible ch = false) :
    update h ch = EMPTY_HASH := by
  have h1 : isAsciiAlpha ch = false := by
    simp [isAdmissible, Bool.or_eq_false_iff] at hna; exact hna.1
  have h2 : isDigit16 ch = false := by
    simp [isAdmissible, Bool.or_eq_false_iff] at hna; exact hna.2
  simp only [update, h1, h2]
  split <;> simp

theorem shiftRight59_eq (h : Nat) : h >>> 59 = h / 2 ^ 59 :=
  Nat.shiftRight_eq_div_pow h 59

theorem update_of_big {h : Nat} (ch : Nat) (hbig : 2 ^ 59 ≤ h) :
    update h ch = EMPTY_HASH := by
  have : h >>> 59 ≠ 0 := by
    rw [shiftRight59_eq]
    exact Nat.ne_of_gt (Nat.div_pos hbig (by positivity))
  simp [update, this]

theorem and31_eq_mod (x : Nat) : x &&& 31 = x % 32 := by
  have := Nat.and_pow_two_sub_one_eq_mod x 5
  norm_num at this
  exact this

theorem and15_eq_mod (x : Nat) : x &&& 15 = x % 16 := by
  have := Nat.and_pow_two_sub_one_eq_mod x 4
  norm_num at this
  exact this

theorem shiftLeft5_or_eq {h x : Nat} (hx : x < 32) : (h <<< 5) ||| x = h * 32 + x := by
  have hx' : x < 2 ^ 5 := lt_of_lt_of_le hx (by norm_num)
  have h2 := Nat.mul_add_lt_is_or hx' h
  have h1 : h <<< 5 = 2 ^ 5 * h := by rw [Nat.shiftLeft_eq, Nat.mul_comm]
  rw [h1, ← h2, Nat.mul_comm]

theorem guard_lt {h : Nat} (hg : (h >>> 59 == 0) = true) : h < 2 ^ 59 := by
  rw [beq_iff_eq, shiftRight59_eq] at hg
  exact (Nat.div_eq_zero_iff (by positivity)).mp hg

/-- Case analysis of one `update` step: the result is either the invalid
sentinel, or the hash was small enough and a 5-bit code got appended. -/
theorem update_cases (h ch : Nat) :
    update h ch = EMPTY_HASH ∨
    (h < 2 ^ 59 ∧ ∃ x, x < 32 ∧ update h ch = h * 32 + x) := by
  by_cases hg : (h >>> 59 == 0) = true
  · have hlt : h < 2 ^ 59 := guard_lt hg
    by_cases ha : isAsciiAlpha ch = true
    · right
      refine ⟨hlt, (ch &&& 0x1F) + 5, ?_, ?_⟩
      · have hb : ch &&& 31 = ch % 32 := and31_eq_mod ch
        have : (97 ≤ ch ∧ ch ≤ 122) ∨ (65 ≤ ch ∧ ch ≤ 90) := by
          simp [isAsciiAlpha] at ha
          rcases ha with h | h
          · exact Or.inl h
          · exact Or.inr h
        show (ch &&& 31) + 5 < 32
        rw [hb]
        omega
      · have hx : (ch &&& 0x1F) + 5 < 32 := by
          have hb : ch &&& 31 = ch % 32 := and31_eq_mod ch
          have : (97 ≤ ch ∧ ch ≤ 122) ∨ (65 ≤ ch ∧ ch ≤ 90) := by
            simp [isAsciiAlpha] at ha
            rcases ha with h | h
            · exact Or.inl h
            · exact Or.inr h
          show (ch &&& 31) + 5 < 32
          rw [hb]
          omega
        have hmod : h * 32 + ((ch &&& 0x1F) + 5) < U64 := by
          have : h ≤ 2 ^ 59 - 1 := by omega
          have : h * 32 ≤ (2 ^ 59 - 1) * 32 := Nat.mul_le_mul_right 32 this
          simp only [U64]
          omega
        simp only [update, hg, if_true, ha]
        rw [shiftLeft5_or_eq hx, Nat.mod_eq_of_lt hmod]
    · by_cases hd : isDigit16 ch = true
      · right
        refine ⟨hlt, (ch &&& 0x0F) - 1, ?_, ?_⟩
        · have : ch &&& 15 ≤ 15 := Nat.and_le_right
          omega
        · have hx : (ch &&& 0x0F) - 1 < 32 := by
            have : ch &&& 15 ≤ 15 := Nat.and_le_right
            omega
          have hmod : h * 32 + ((ch &&& 0x0F) - 1) < U64 := by
            have : h ≤ 2 ^ 59 - 1 := by omega
            have : h * 32 ≤ (2 ^ 59 - 1) * 32 := Nat.mul_le_mul_right 32 this
            simp only [U64]
            omega
          simp only [update, hg, if_true, ha, hd]
          rw [shiftLeft5_or_eq hx, Nat.mod_eq_of_lt hmod]
          simp
      · left
        simp only [update, hg, if_true]
        simp [Bool.not_eq_true] at ha hd
        simp [ha, hd]
  · left
    simp only [Bool.not_eq_true] at hg
    simp [update, hg]

/-- Growth of the fold: starting from `h`, folding `update` over any byte
list either invalidates the hash or multiplies it by at least `32` per
byte consumed. -/
theorem foldl_update_lower (l : List Nat) :
    ∀ h : Nat, l.foldl update h = EMPTY_HASH ∨
      h * 32 ^ l.length ≤ l.foldl update h := by
  induction l with
  | nil => intro h; right; simp
  | cons c t ih =>
    intro h
    rw [List.foldl_cons]
    rcases update_cases h c with heq | ⟨_, x, _, heq⟩
    · left
      rw [heq]
      exact foldl_update_empty t
    · rcases ih (update h c) with h1 | h1
      · exact Or.inl h1
      · right
        calc h * 32 ^ (c :: t).length = (h * 32) * 32 ^ t.length := by
              rw [List.length_cons, pow_succ]; ring
          _ ≤ update h c * 32 ^ t.length := by
              apply Nat.mul_le_mul_right
              omega
          _ ≤ t.foldl update (update h c) := h1

/-! ### Per-byte code of an admissible byte, and the unwrapped encoding -/

/-- The 5-bit code a single admissible byte contributes in `update`:
letters get `(ch & 0x1F) + 5` (codes 6..=31), digits `'1'..='6'` get
`(ch & 0x0F) - 1` (codes 0..=5). -/
def code (ch : Nat) : Nat :=
  if isAsciiAlpha ch then (ch &&& 0x1F) + 5 else (ch &&& 0x0F) - 1

/-- Packing a list of 5-bit codes into a single number, most significant
code first. -/
def encodeCodes (l : List Nat) : Nat := l.foldl (fun h v => h * 32 + v) 0

theorem code_lt_32 {ch : Nat} (ha : isAdmissible ch = true) : code ch < 32 := by
  by_cases h : isAsciiAlpha ch = true
  · have hb : ch &&& 31 = ch % 32 := and31_eq_mod ch
    have : (97 ≤ ch ∧ ch ≤ 122) ∨ (65 ≤ ch ∧ ch ≤ 90) := by
      simp [isAsciiAlpha] at h
      rcases h with h | h
      · exact Or.inl h
      · exact Or.inr h
    simp only [code, if_pos h]
    show (ch &&& 31) + 5 < 32
    rw [hb]
    omega
  · have : ch &&& 15 ≤ 15 := Nat.and_le_right
    simp only [code, if_neg h]
    omega

theorem code_alpha_ge_6 {ch : Nat} (ha : isAsciiAlpha ch = true) : 6 ≤ code ch := by
  have hb : ch &&& 31 = ch % 32 := and31_eq_mod ch
  have hr : (97 ≤ ch ∧ ch ≤ 122) ∨ (65 ≤ ch ∧ ch ≤ 90) := by
    simp [isAsciiAlpha] at ha
    rcases ha with h | h
    · exact Or.inl h
    · exact Or.inr h
  simp only [code, if_pos ha]
  show 6 ≤ (ch &&& 31) + 5
  rw [hb]
  omega

/-- On an admissible byte and a non-overflowing hash, `update` appends the
byte's 5-bit code. -/
theorem update_admissible {h ch : Nat} (hh : h < 2 ^ 59) (ha : isAdmissible ch = true) :
    update h ch = h * 32 + code ch := by
  have hg : (h >>> 59 == 0) = true := by
    rw [beq_iff_eq, shiftRight59_eq]
    exact Nat.div_eq_of_lt hh
  have hmod : h * 32 + code ch < U64 := by
    have h32 := code_lt_32 ha
    have : h * 32 ≤ (2 ^ 59 - 1) * 32 := Nat.mul_le_mul_right 32 (by omega)
    simp only [U64]
    omega
  by_cases hα : isAsciiAlpha ch = true
  · have hx : (ch &&& 0x1F) + 5 < 32 := by
      have := code_lt_32 ha
      simpa [code, if_pos hα] using this
    have heq : update h ch = ((h <<< 5) ||| ((ch &&& 0x1F) + 5)) % U64 := by
      simp [update, hg, hα]
    rw [heq, shiftLeft5_or_eq hx,
      Nat.mod_eq_of_lt (by simpa [code, if_pos hα] using hmod)]
    simp [code, hα]
  · have hα' : isAsciiAlpha ch = false := by simpa using hα
    have hd : isDigit16 ch = true := by
      simp [isAdmissible, hα'] at ha
      exact ha
    have hx : (ch &&& 0x0F) - 1 < 32 := by
      have : ch &&& 15 ≤ 15 := Nat.and_le_right
      omega
    have heq : update h ch = ((h <<< 5) ||| ((ch &&& 0x0F) - 1)) % U64 := by
      simp [update, hg, hα', hd]
    rw [heq, shiftLeft5_or_eq hx,
      Nat.mod_eq_of_lt (by simpa [code, hα'] using hmod)]
    simp [code, hα']

/-- For an admissible string of at most 12 bytes the fold never
invalidates: the fingerprint is exactly the packed code list, and it fits
in `32 ^ length` bits. -/
theorem fromStr_eq_encode :
    ∀ (s : List Nat), s.all isAdmissible = true → s.length ≤ 12 →
      fromStr s = encodeCodes (s.map code) ∧
        encodeCodes (s.map code) < 32 ^ s.length := by
  intro s
  induction s using List.reverseRecOn with
  | nil => intro _ _; exact ⟨rfl, by norm_num [encodeCodes]⟩
  | append_singleton t a ih =>
    intro hadm hlen
    have hadm_t : t.all isAdmissible = true := by
      simp [List.all_append] at hadm
      simp [List.all_eq_true]
      intro x hx
      exact hadm.1 x hx
    have hadm_a : isAdmissible a = true := by
      simp [List.all_append] at hadm
      exact hadm.2
    have hlen_t : t.length ≤ 11 := by
      simp [List.length_append] at hlen
      omega
    obtain ⟨heq, hlt⟩ := ih hadm_t (by omega)
    have hsmall : encodeCodes (t.map code) < 2 ^ 59 := by
      calc encodeCodes (t.map code) < 32 ^ t.length := hlt
        _ ≤ 32 ^ 11 := Nat.pow_le_pow_right (by norm_num) hlen_t
        _ < 2 ^ 59 := by norm_num
    constructor
    · show (t ++ [a]).foldl update 0 = _
      rw [List.foldl_append, List.foldl_cons, List.foldl_nil]
      show update (fromStr t) a = _
      rw [heq, update_admissible hsmall hadm_a]
      simp [encodeCodes, List.foldl_append]
    · have hca := code_lt_32 hadm_a
      have henc : encodeCodes ((t ++ [a]).map code) =
          encodeCodes (t.map code) * 32 + code a := by
        simp [encodeCodes, List.foldl_append]
      have h1 : encodeCodes (t.map code) * 32 ≤ (32 ^ t.length - 1) * 32 :=
        Nat.mul_le_mul_right 32 (by omega)
      have hpos : 1 ≤ 32 ^ t.length := Nat.one_le_pow _ _ (by norm_num)
      have hlen' : (t ++ [a]).length = t.length + 1 := by simp
      rw [henc, hlen', pow_succ]
      omega

/-! ### `impl fmt::Debug for LocalNameHash` (src/html/local_name.rs) -/

/-- The per-group byte of the debug loop: codes `6..` map to `'a' + code - 6`,
codes `0..=5` map to `'1' + code`. -/
def debugChar (v : Nat) : Nat := if 6 ≤ v then v + (97 - 6) else v + 49

/-- The peeling loop of the `Debug` impl: emit the low 5-bit group into the
reverse buffer at `pos`, shift, and stop when the rest is zero or the
buffer (12 slots, `pos` counting down from 11) is full.  The returned list
is the final buffer slice `reverse_buf[pos..]`, most significant group
first. -/
def debugGo : Nat → Nat → List Nat
  | 0, h => [debugChar (h &&& 31)]
  | pos + 1, h =>
    let c := debugChar (h &&& 31)
    if h >>> 5 == 0 then [c] else debugGo pos (h >>> 5) ++ [c]

/-- The `Debug` rendering: `none` models the `"N/A"` branch taken for the
invalid sentinel; otherwise the 12-slot reverse-buffer peeling loop. -/
def debugRender (h : Nat) : Option (List Nat) :=
  if is_empty h then none else some (debugGo 11 h)

/-- ASCII lowercasing of a byte. -/
def toLowerByte (c : Nat) : Nat := if 65 ≤ c && c ≤ 90 then c + 32 else c

theorem shiftRight5_eq (x : Nat) : x >>> 5 = x / 32 := by
  rw [Nat.shiftRight_eq_div_pow]

/-- Packing a code list keeps a lower bound driven by its head. -/
theorem encode_foldl_lower (l : List Nat) :
    ∀ h : Nat, h * 32 ^ l.length ≤ l.foldl (fun h v => h * 32 + v) h := by
  induction l with
  | nil => intro h; simp
  | cons c t ih =>
    intro h
    rw [List.foldl_cons]
    calc h * 32 ^ (c :: t).length = (h * 32) * 32 ^ t.length := by
          rw [List.length_cons, pow_succ]; ring
      _ ≤ (h * 32 + c) * 32 ^ t.length :=
          Nat.mul_le_mul_right _ (Nat.le_add_right _ _)
      _ ≤ t.foldl (fun h v => h * 32 + v) (h * 32 + c) := ih _

theorem encodeCodes_cons_pos {v : Nat} (l : List Nat) (hv : 1 ≤ v) :
    1 ≤ encodeCodes (v :: l) := by
  have h := encode_foldl_lower l v
  have : 1 ≤ v * 32 ^ l.length :=
    Nat.one_le_iff_ne_zero.mpr (Nat.mul_ne_zero (by omega) (by positivity))
  calc 1 ≤ v * 32 ^ l.length := this
    _ ≤ l.foldl (fun h v => h * 32 + v) v := h
    _ = encodeCodes (v :: l) := by simp [encodeCodes]

/-- The peeling loop inverts the packing, provided the head code is
non-zero, all codes are 5-bit, and the buffer is large enough. -/
theorem debugGo_encode :
    ∀ (l : List Nat) (v pos : Nat), (∀ x ∈ v :: l, x < 32) → 1 ≤ v →
      (v :: l).length ≤ pos + 1 →
      debugGo pos (encodeCodes (v :: l)) = (v :: l).map debugChar := by
  intro l
  induction l using List.reverseRecOn with
  | nil =>
    intro v pos hlt hv _
    have hv32 : v < 32 := hlt v (by simp)
    have henc : encodeCodes [v] = v := by simp [encodeCodes]
    have hand : v &&& 31 = v := by
      rw [and31_eq_mod]
      exact Nat.mod_eq_of_lt hv32
    cases pos with
    | zero => simp [debugGo, henc, hand]
    | succ p =>
      have hsh : (v >>> 5 == 0) = true := by
        rw [beq_iff_eq, shiftRight5_eq]
        exact Nat.div_eq_of_lt hv32
      simp [debugGo, henc, hand, hsh]
  | append_singleton m d ih =>
    intro v pos hlt hv hlen
    have hd32 : d < 32 := hlt d (by simp)
    have henc : encodeCodes (v :: (m ++ [d])) = encodeCodes (v :: m) * 32 + d := by
      simp [encodeCodes, List.foldl_append]
    have hE : 1 ≤ encodeCodes (v :: m) := encodeCodes_cons_pos m hv
    obtain ⟨p, rfl⟩ : ∃ p, pos = p + 1 := by
      have : 2 ≤ (v :: (m ++ [d])).length := by simp
      cases pos with
      | zero => omega
      | succ p => exact ⟨p, rfl⟩
    have hand : (encodeCodes (v :: m) * 32 + d) &&& 31 = d := by
      rw [and31_eq_mod]
      omega
    have hsh : (encodeCodes (v :: m) * 32 + d) >>> 5 = encodeCodes (v :: m) := by
      rw [shiftRight5_eq]
      omega
    have hne : ((encodeCodes (v :: m) * 32 + d) >>> 5 == 0) = false := by
      rw [hsh, beq_eq_false_iff_ne]
      omega
    have hlt' : ∀ x ∈ v :: m, x < 32 := by
      intro x hx
      apply hlt
      simp only [List.mem_cons, List.mem_append] at hx ⊢
      tauto
    have hlen' : (v :: m).length ≤ p + 1 := by
      simp only [List.length_cons, List.length_append, List.length_singleton] at hlen ⊢
      omega
    have hE0 : (encodeCodes (v :: m) == 0) = false := by
      rw [beq_eq_false_iff_ne]
      omega
    have hstep : debugGo (p + 1) (encodeCodes (v :: m) * 32 + d) =
        debugGo p (encodeCodes (v :: m)) ++ [debugChar d] := by
      simp only [debugGo, hand, hsh, hE0, Bool.false_eq_true, if_false]
    rw [henc, hstep, ih v p hlt' hv hlen']
    simp

/-- For an admissible byte, rendering its 5-bit code yields its ASCII
lowercase form. -/
theorem debugChar_code {ch : Nat} (ha : isAdmissible ch = true) :
    debugChar (code ch) = toLowerByte ch := by
  by_cases hα : isAsciiAlpha ch = true
  · have hr : (97 ≤ ch ∧ ch ≤ 122) ∨ (65 ≤ ch ∧ ch ≤ 90) := by
      simp [isAsciiAlpha] at hα
      rcases hα with h | h
      · exact Or.inl h
      · exact Or.inr h
    have hcode : code ch = ch % 32 + 5 := by
      simp only [code, if_pos hα]
      rw [and31_eq_mod]
    have h6 : 6 ≤ ch % 32 + 5 := by omega
    rw [hcode, debugChar, if_pos h6, toLowerByte]
    split
    · rename_i hcase
      simp at hcase
      omega
    · rename_i hcase
      simp at hcase
      omega
  · have hα' : isAsciiAlpha ch = false := by simpa using hα
    have hd : isDigit16 ch = true := by
      simp [isAdmissible, hα'] at ha
      exact ha
    have hr : 49 ≤ ch ∧ ch ≤ 54 := by
      simpa [isDigit16] using hd
    have hcode : code ch = ch % 16 - 1 := by
      simp only [code, if_neg hα]
      rw [and15_eq_mod]
    have hlow : toLowerByte ch = ch := by
      simp only [toLowerByte]
      split
      · rename_i hcase
        simp at hcase
        omega
      · rfl
    rw [hcode, hlow, debugChar]
    split
    · omega
    · omega

/-! ## `LocalName` (src/html/local_name.rs) -/

/-- A byte range into the input, as the tokenizer's `SliceRange`
(`end` is a reserved word in Lean, so the field is `stop`). -/
structure SliceRange where
  start : Nat
  stop : Nat
  deriving DecidableEq

/-- `Bytes::slice(range)`: the bytes of `input` between `range.start`
(inclusive) and `range.stop` (exclusive). -/
def sliceBytes (input : List Nat) (r : SliceRange) : List Nat :=
  (input.take r.stop).drop r.start

/-- `LocalName`: either a fingerprint hash or a raw byte slice. -/
inductive LocalName where
  | Hash (h : Nat)
  | Bytes (bs : List Nat)
  deriving DecidableEq

/-- `LocalName::new(input, range, hash)`: choose the `Bytes` representation
when the hash is the invalid sentinel, otherwise keep the `Hash`. -/
def LocalName.new (input : List Nat) (range : SliceRange) (hash : Nat) : LocalName :=
  if is_empty hash then LocalName.Bytes (sliceBytes input range) else LocalName.Hash hash

/-- The spec's *valid* fingerprint state (§3 of the spec, stated for
comparison with the code): at least one character consumed, `h ≠ 0` and
`h ≠ ALL_ONES`.  Having consumed a character is reflected in `h ≠ 0`. -/
def specValidHash (h : Nat) : Prop := h ≠ 0 ∧ h ≠ EMPTY_HASH

instance (h : Nat) : Decidable (specValidHash h) := by
  unfold specValidHash
  infer_instance

/-! ## Claim theorems for the fingerprint and `LocalName` -/

/-- C3: the fingerprint of the exact string `"div"` (bytes `'d','i','v'`),
computed by folding `update` starting from `0`, equals `9691`. -/
theorem fingerprint_div_eq_9691 : fromStr [100, 105, 118] = 9691 := by decide

/-- C5: for every string containing at least one byte outside the
admissible alphabet `{A-Z, a-z, 1-6}`, the fingerprint is the invalid
sentinel: the offending byte invalidates the hash and every later update
keeps the sentinel. -/
theorem fingerprint_invalid_of_not_admissible (s : List Nat) (c : Nat)
    (hmem : c ∈ s) (hc : isAdmissible c = false) :
    is_empty (fromStr s) = true := by
  obtain ⟨l, r, rfl⟩ := List.append_of_mem hmem
  show is_empty ((l ++ c :: r).foldl update 0) = true
  rw [List.foldl_append, List.foldl_cons, update_not_admissible _ hc,
    foldl_update_empty]
  rfl

/-- Witness for C5 at the concrete input `"div@"` (the test
`hash_invalidation_for_non_ascii_chars` uses `"div@&"`). -/
theorem fingerprint_invalid_of_not_admissible_witness :
    is_empty (fromStr [100, 105, 118, 64]) = true :=
  fingerprint_invalid_of_not_admissible [100, 105, 118, 64] 64 (by decide) (by decide)

/-- C1 counterexample: the thirteen-byte admissible string `"aaaaaaaaaaaaa"`
has length `13 > 12`, yet its fingerprint is *not* the invalid sentinel —
the overflow check fires only when the top five bits are already occupied,
which after twelve `'a'`s they are not. -/
theorem fingerprint_long_counterexample :
    (List.replicate 13 97).length > 12 ∧
    (List.replicate 13 97).all isAdmissible = true ∧
    is_empty (fromStr (List.replicate 13 97)) = false := by
  refine ⟨by decide, by decide, ?_⟩
  decide

/-- C1 amended: for every string over the admissible alphabet of length
greater than 13 whose first byte is an ASCII letter (as every tag name
is), the fingerprint is the invalid sentinel. -/
theorem fingerprint_long_invalid (c : Nat) (t : List Nat)
    (hα : isAsciiAlpha c = true)
    (hadm : (c :: t).all isAdmissible = true)
    (hlen : (c :: t).length > 13) :
    is_empty (fromStr (c :: t)) = true := by
  have h13 : 13 ≤ t.length := by
    simp only [List.length_cons] at hlen
    omega
  obtain ⟨d, r, hdr⟩ : ∃ d r, t.drop 12 = d :: r := by
    cases hh : t.drop 12 with
    | nil =>
      have : t.length ≤ 12 := by
        have := congrArg List.length hh
        simp [List.length_drop] at this
        omega
      omega
    | cons d r => exact ⟨d, r, rfl⟩
  have hsplit : t = t.take 12 ++ d :: r := by
    rw [← hdr, List.take_append_drop]
  have hlen12 : (t.take 12).length = 12 := by
    rw [List.length_take]
    omega
  -- the first update packs the first letter's code, which is at least 6
  have hadm_c : isAdmissible c = true := by simp [isAdmissible, hα]
  have h1 : update 0 c = code c := by
    have h0 : update 0 c = 0 * 32 + code c := update_admissible (by norm_num) hadm_c
    simpa using h0
  have hge6 : 6 ≤ code c := code_alpha_ge_6 hα
  have hlt : code c < 32 := code_lt_32 (by simp [isAdmissible, hα])
  -- after 12 more bytes the hash is either the sentinel or at least 6 * 32^12
  rcases foldl_update_lower (t.take 12) (code c) with hbig | hbig
  · show is_empty ((c :: t).foldl update 0) = true
    rw [hsplit, List.foldl_cons, h1, List.foldl_append, hbig, List.foldl_cons,
      update_of_empty, foldl_update_empty]
    rfl
  · have hbig' : 2 ^ 59 ≤ (t.take 12).foldl update (code c) := by
      calc 2 ^ 59 ≤ 6 * 32 ^ 12 := by norm_num
        _ ≤ code c * 32 ^ (t.take 12).length := by
            rw [hlen12]
            exact Nat.mul_le_mul_right _ hge6
        _ ≤ (t.take 12).foldl update (code c) := hbig
    show is_empty ((c :: t).foldl update 0) = true
    rw [hsplit, List.foldl_cons, h1, List.foldl_append, List.foldl_cons,
      update_of_big d hbig', foldl_update_empty]
    rfl

/-- Witness for the amended C1 at the fourteen-byte string
`"aaaaaaaaaaaaaa"` of the source test `hash_invalidation_for_long_values`. -/
theorem fingerprint_long_invalid_witness :
    is_empty (fromStr (97 :: List.replicate 13 97)) = true :=
  fingerprint_long_invalid 97 (List.replicate 13 97) (by decide) (by decide) (by decide)

/-- C4 counterexample: with the fresh hash `0` (no characters consumed,
hence *not* valid in the spec's sense), `LocalName::new` nevertheless
returns the `Hash` variant — the code only tests for the invalid
sentinel, not for the spec's validity. -/
theorem localname_new_counterexample :
    LocalName.new [100, 105, 118] ⟨0, 3⟩ 0 = LocalName.Hash 0 ∧ ¬ specValidHash 0 := by
  constructor
  · decide
  · intro h
    exact h.1 rfl

/-- C4 amended: `LocalName::new(input, range, hash)` returns the `Hash`
variant iff the hash is not the invalid sentinel (`is_empty` is false),
and returns the `Bytes` variant holding `input[range]` iff the hash is the
sentinel. -/
theorem localname_new_spec (input : List Nat) (range : SliceRange) (hash : Nat) :
    (LocalName.new input range hash = LocalName.Hash hash ↔ is_empty hash = false) ∧
    (is_empty hash = true →
      LocalName.new input range hash = LocalName.Bytes (sliceBytes input range)) := by
  constructor
  · constructor
    · intro h
      by_contra hne
      have he : is_empty hash = true := by
        cases hh : is_empty hash
        · exact absurd hh hne
        · rfl
      rw [LocalName.new, if_pos he] at h
      exact LocalName.noConfusion h
    · intro h
      rw [LocalName.new, if_neg (by rw [h]; exact Bool.false_ne_true)]
  · intro h
    rw [LocalName.new, if_pos h]

/-- Witness for the amended C4: the sentinel hash yields the byte slice of
the given range, a non-sentinel hash yields the `Hash` variant. -/
theorem localname_new_spec_witness :
    LocalName.new [100, 105, 118] ⟨0, 2⟩ EMPTY_HASH = LocalName.Bytes [100, 105] ∧
    LocalName.new [100, 105, 118] ⟨0, 3⟩ 9691 = LocalName.Hash 9691 := by
  constructor
  · have h := (localname_new_spec [100, 105, 118] ⟨0, 2⟩ EMPTY_HASH).2 (by decide)
    rw [h]
    rfl
  · exact (localname_new_spec [100, 105, 118] ⟨0, 3⟩ 9691).1.mpr (by decide)

/-- C6 counterexample: the admissible string `"1a"` has the valid
fingerprint `6` (not zero, not the sentinel), yet the `Debug` rendering
peels only the single group `'a'` — the leading digit `'1'` packs as the
code `0` and is lost — so the rendering is `"a"`, not the lowercase form
`"1a"` of the original name. -/
theorem debug_render_counterexample :
    [49, 97].all isAdmissible = true ∧
    specValidHash (fromStr [49, 97]) ∧
    debugRender (fromStr [49, 97]) ≠ some ([49, 97].map toLowerByte) := by
  refine ⟨by decide, ⟨by decide, by decide⟩, by decide⟩

/-- C6 amended: for every non-empty string of at most 12 admissible bytes
whose first byte is an ASCII letter (as every tag name's is), the `Debug`
rendering of its fingerprint is the ASCII-lowercase form of the string. -/
theorem debug_render_lowercase (c : Nat) (t : List Nat)
    (hα : isAsciiAlpha c = true)
    (hadm : (c :: t).all isAdmissible = true)
    (hlen : (c :: t).length ≤ 12) :
    debugRender (fromStr (c :: t)) = some ((c :: t).map toLowerByte) := by
  obtain ⟨henc, hlt⟩ := fromStr_eq_encode (c :: t) hadm hlen
  have hmapcons : (c :: t).map code = code c :: t.map code := by simp
  have hlt' : fromStr (c :: t) < 2 ^ 60 := by
    rw [henc]
    calc encodeCodes ((c :: t).map code) < 32 ^ (c :: t).length := hlt
      _ ≤ 32 ^ 12 := Nat.pow_le_pow_right (by norm_num) hlen
      _ ≤ 2 ^ 60 := by norm_num
  have hvalid : is_empty (fromStr (c :: t)) = false := by
    rw [is_empty, beq_eq_false_iff_ne]
    intro hcontra
    rw [hcontra] at hlt'
    simp [EMPTY_HASH] at hlt'
  have hall32 : ∀ x ∈ code c :: t.map code, x < 32 := by
    intro x hx
    rcases List.mem_cons.mp hx with rfl | hx
    · exact code_lt_32 (by simp [isAdmissible, hα])
    · obtain ⟨y, hy, rfl⟩ := List.mem_map.mp hx
      apply code_lt_32
      simp [List.all_eq_true] at hadm
      exact hadm.2 y hy
  have hhead : 1 ≤ code c := le_trans (by norm_num) (code_alpha_ge_6 hα)
  have hlen' : (code c :: t.map code).length ≤ 11 + 1 := by
    simp only [List.length_cons, List.length_map]
    simp only [List.length_cons] at hlen
    omega
  have hpeel := debugGo_encode (t.map code) (code c) 11 hall32 hhead hlen'
  rw [debugRender, if_neg (by rw [hvalid]; exact Bool.false_ne_true), henc, hmapcons,
    hpeel]
  congr 1
  rw [← hmapcons, List.map_map]
  apply List.map_congr_left
  intro x hx
  simp only [Function.comp_apply]
  apply debugChar_code
  simp [List.all_eq_true] at hadm
  rcases List.mem_cons.mp hx with rfl | hx
  · simp [isAdmissible, hα]
  · exact hadm.2 x hx

/-- Witness for the amended C6 at the concrete name `"DiV"`: the rendering
of its fingerprint is `"div"`. -/
theorem debug_render_lowercase_witness :
    debugRender (fromStr [68, 105, 86]) = some [100, 105, 118] :=
  debug_render_lowercase 68 [105, 86] (by decide) (by decide) (by decide)

/-! ## Tokenizer state machine

The token shapes, the machine state and the actions follow
src/tokenizer/state_machine_dsl/action/mod.rs and
src/tokenizer/state_machine/mod.rs; the raw-text states group follows
src/tokenizer/syntax/text/rawtext.rs.  In this part of the tokenizer a tag
name hash is an `Option<u64>` whose `None` is the invalid state
(`create_start_tag`/`create_end_tag` initialize it to `Some(0)`). -/

/-- The six text parsing modes. -/
inductive TextParsingMode where
  | Data
  | PlainText
  | RCData
  | RawText
  | ScriptData
  | CDataSection
  deriving DecidableEq

/-- The machine states relevant to the embedded states group.  The raw-text
group (src/tokenizer/syntax/text/rawtext.rs) is embedded in full; of the
remaining states only the identities referenced by its transitions and by
`switch_text_parsing_mode` are listed — their own transition tables are not
part of the embedded sources, so stepping in them stops the run. -/
inductive State where
  | data_state
  | plaintext_state
  | rcdata_state
  | rawtext_state
  | script_data_state
  | cdata_section_state
  | rawtext_less_than_sign_state
  | rawtext_end_tag_open_state
  | rawtext_end_tag_name_state
  | before_attribute_name_state
  | self_closing_start_tag_state
  deriving DecidableEq

/-- An attribute of a start tag (`ShallowAttribute`): name and value byte
ranges. -/
structure ShallowAttribute where
  name : SliceRange
  value : SliceRange
  deriving DecidableEq

/-- The shallow tokens.  The source `StartTag` carries a shared reference
to the machine's attribute buffer; here the buffer lives in the machine
state (`attrBuffer`). -/
inductive ShallowToken where
  | Character (range : SliceRange)
  | Comment (text : SliceRange)
  | Doctype (name : Option SliceRange) (publicId : Option SliceRange)
      (systemId : Option SliceRange) (forceQuirks : Bool)
  | StartTag (name : SliceRange) (nameHash : Option Nat) (selfClosing : Bool)
  | EndTag (name : SliceRange) (nameHash : Option Nat)
  | Eof
  deriving DecidableEq

/-- The machine state (§3 of the spec lists the fields).  `panicked` models
reaching the `unreachable!` branch of `emit_current_token`; `halted` marks
that the run stepped into a state whose table is outside the embedded
sources. -/
structure Machine where
  state : State
  pos : Nat
  rawStart : Nat
  tokenPartStart : Nat
  currentToken : Option ShallowToken
  currentAttr : Option ShallowAttribute
  attrBuffer : List ShallowAttribute
  lastStartTagNameHash : Option Nat
  lastTextParsingMode : TextParsingMode
  cdataAllowed : Bool
  isStateEnter : Bool
  finished : Bool
  output : List ShallowToken
  panicked : Bool
  halted : Bool
  deriving DecidableEq

/-! ### Actions (src/tokenizer/state_machine_dsl/action/mod.rs) -/

/-- Modelled from the spec: the `@emit_lex_result_with_raw_exclusive`
helper (state_machine_dsl/action/helpers.rs is not among the sources).
Emits a token whose raw range is `[raw_start, pos)` (exclusive bound,
§3 of the spec); the next token's raw span begins at the current
position. -/
def emitWithRawExclusive (m : Machine) (tok : ShallowToken) : Machine :=
  { m with output := m.output ++ [tok], rawStart := m.pos }

/-- Modelled from the spec: the `@emit_lex_result_with_raw_inclusive`
helper.  Emits a token whose raw range is `[raw_start, pos]` (inclusive
bound); the next token's raw span begins right after the current
position. -/
def emitWithRawInclusive (m : Machine) (tok : ShallowToken) : Machine :=
  { m with output := m.output ++ [tok], rawStart := m.pos + 1 }

/-- `emit_chars`: if there are pending bytes (`pos > raw_start`), emit them
as a `Character` token with the exclusive raw range. -/
def emit_chars (m : Machine) : Machine :=
  if m.rawStart < m.pos then
    emitWithRawExclusive m (ShallowToken.Character ⟨m.rawStart, m.pos⟩)
  else m

/-- `emit_current_token`: `take` the current token and emit it with the
inclusive raw range; the `None` branch is the source's `unreachable!`. -/
def emit_current_token (m : Machine) : Machine :=
  match m.currentToken with
  | some token => emitWithRawInclusive { m with currentToken := none } token
  | none => { m with panicked := true }

/-- `emit_eof`: emit the `Eof` token and mark the machine finished. -/
def emit_eof (m : Machine) : Machine :=
  { m with output := m.output ++ [ShallowToken.Eof], finished := true }

/-- `start_raw`. -/
def start_raw (m : Machine) : Machine := { m with rawStart := m.pos }

/-- `start_token_part`. -/
def start_token_part (m : Machine) : Machine :=
  { m with tokenPartStart := m.pos - m.rawStart }

/-- `create_start_tag`: clear the shared attribute buffer and install a
fresh `StartTag` with hash `Some(0)`. -/
def create_start_tag (m : Machine) : Machine :=
  { m with attrBuffer := [],
           currentToken := some (ShallowToken.StartTag ⟨0, 0⟩ (some 0) false) }

/-- `create_end_tag`: install a fresh `EndTag` with hash `Some(0)`. -/
def create_end_tag (m : Machine) : Machine :=
  { m with currentToken := some (ShallowToken.EndTag ⟨0, 0⟩ (some 0)) }

/-- `create_doctype`. -/
def create_doctype (m : Machine) : Machine :=
  { m with currentToken := some (ShallowToken.Doctype none none none false) }

/-- `create_comment`. -/
def create_comment (m : Machine) : Machine :=
  { m with currentToken := some (ShallowToken.Comment ⟨0, 0⟩) }

/-- Modelled from the spec: the `@set_token_part_range` helper — the
current sub-range runs from `token_part_start` to `pos - raw_start`
(§4.5 of the spec). -/
def tokenPartRange (m : Machine) : SliceRange :=
  ⟨m.tokenPartStart, m.pos - m.rawStart⟩

/-- Modelled from the spec: the free function `update_tag_name_hash`
applied by the tokenizer's action (its definition is not among the
sources).  Per §3 of the spec the hash follows the fingerprint update
rule; the tokenizer-side invalid state is `None`. -/
def update_tag_name_hash_fn (h : Option Nat) (ch : Nat) : Option Nat :=
  match h with
  | some h => if is_empty (update h ch) then none else some (update h ch)
  | none => none

/-- `update_tag_name_hash`: update the name hash of the current tag token
(start or end tag) with the consumed byte. -/
def update_tag_name_hash (m : Machine) (ch : Nat) : Machine :=
  match m.currentToken with
  | some (ShallowToken.StartTag name nameHash sc) =>
      let tok := ShallowToken.StartTag name (update_tag_name_hash_fn nameHash ch) sc
      { m with currentToken := some tok }
  | some (ShallowToken.EndTag name nameHash) =>
      let tok := ShallowToken.EndTag name (update_tag_name_hash_fn nameHash ch)
      { m with currentToken := some tok }
  | _ => m

/-- `finish_tag_name`: set the name range of the current tag token; per
§4.5 of the spec a start tag additionally publishes its fingerprint as
`last_start_tag_name_hash`. -/
def finish_tag_name (m : Machine) : Machine :=
  match m.currentToken with
  | some (ShallowToken.StartTag _ nameHash sc) =>
      let tok := ShallowToken.StartTag (tokenPartRange m) nameHash sc
      { m with currentToken := some tok, lastStartTagNameHash := nameHash }
  | some (ShallowToken.EndTag _ nameHash) =>
      let tok := ShallowToken.EndTag (tokenPartRange m) nameHash
      { m with currentToken := some tok }
  | _ => m

/-- `mark_as_self_closing`. -/
def mark_as_self_closing (m : Machine) : Machine :=
  match m.currentToken with
  | some (ShallowToken.StartTag name nameHash _) =>
      { m with currentToken := some (ShallowToken.StartTag name nameHash true) }
  | _ => m

/-- `start_attr`: create a fresh current attribute — but only while a
start tag is being parsed (the source's `NOTE: create attribute only if we
are parsing a start tag`). -/
def start_attr (m : Machine) : Machine :=
  match m.currentToken with
  | some (ShallowToken.StartTag _ _ _) =>
      start_token_part { m with currentAttr := some ⟨⟨0, 0⟩, ⟨0, 0⟩⟩ }
  | _ => m

/-- Modelled from the spec: the `@finish_attr_part` helper for the name —
set the sub-range on the current attribute when one exists (§4.5). -/
def finish_attr_name (m : Machine) : Machine :=
  match m.currentAttr with
  | some a => { m with currentAttr := some { a with name := tokenPartRange m } }
  | none => m

/-- Modelled from the spec: the `@finish_attr_part` helper for the value. -/
def finish_attr_value (m : Machine) : Machine :=
  match m.currentAttr with
  | some a => { m with currentAttr := some { a with value := tokenPartRange m } }
  | none => m

/-- `finish_attr`: `take` the current attribute and push it to the shared
buffer; the `None` branch is the source's explicit *end tag case*. -/
def finish_attr (m : Machine) : Machine :=
  match m.currentAttr with
  | some attr => { m with attrBuffer := m.attrBuffer ++ [attr], currentAttr := none }
  | none => m

/-- `is_appropriate_end_tag` — modelled from the spec (the condition's
implementation is not among the sources): the accumulated end-tag
fingerprint equals `last_start_tag_name_hash` and neither is the invalid
(`None`) state. -/
def is_appropriate_end_tag (m : Machine) : Bool :=
  match m.currentToken with
  | some (ShallowToken.EndTag _ (some h)) =>
      match m.lastStartTagNameHash with
      | some l => h == l
      | none => false
  | _ => false

/-! ### State switching and the raw-text states group -/

/-- `switch_state`: install the new state function and raise the
state-enter flag. -/
def switch_state (m : Machine) (s : State) : Machine :=
  { m with state := s, isStateEnter := true }

/-- Advance the input cursor past the consumed byte. -/
def advance (m : Machine) : Machine := { m with pos := m.pos + 1 }

/-- Modelled from the spec: the DSL's `whitespace` byte class (the class
definitions live in the DSL's syntax module, not among the sources) — the
HTML whitespace bytes space, tab, LF, FF, CR. -/
def isWhitespace (b : Nat) : Bool :=
  b == 32 || b == 9 || b == 10 || b == 12 || b == 13

/-- One step of the machine on a consumed byte `b`, as the raw-text states
group defines it (src/tokenizer/syntax/text/rawtext.rs); `reconsumed`
models `reconsume in`, which re-presents the same byte to the new state.
Stepping in a state whose table is outside the embedded sources halts the
run. -/
inductive StepResult where
  | consumed (m : Machine)
  | reconsumed (m : Machine)
  deriving DecidableEq

/-- The machine carried by a step result. -/
def StepResult.machine : StepResult → Machine
  | .consumed m => m
  | .reconsumed m => m

def stepByte (m : Machine) (b : Nat) : StepResult :=
  match m.state with
  | State.rawtext_state =>
      if b == 60 then
        StepResult.consumed (advance (switch_state (emit_chars m)
          State.rawtext_less_than_sign_state))
      else StepResult.consumed (advance m)
  | State.rawtext_less_than_sign_state =>
      if b == 47 then
        StepResult.consumed (advance (switch_state m State.rawtext_end_tag_open_state))
      else StepResult.reconsumed (switch_state (emit_chars m) State.rawtext_state)
  | State.rawtext_end_tag_open_state =>
      if isAsciiAlpha b then
        StepResult.consumed (advance (switch_state
          (update_tag_name_hash (start_token_part (create_end_tag m)) b)
          State.rawtext_end_tag_name_state))
      else StepResult.reconsumed (switch_state (emit_chars m) State.rawtext_state)
  | State.rawtext_end_tag_name_state =>
      if isWhitespace b then
        if is_appropriate_end_tag m then
          StepResult.consumed (advance (switch_state (finish_tag_name m)
            State.before_attribute_name_state))
        else StepResult.reconsumed (switch_state (emit_chars m) State.rawtext_state)
      else if b == 47 then
        if is_appropriate_end_tag m then
          StepResult.consumed (advance (switch_state (finish_tag_name m)
            State.self_closing_start_tag_state))
        else StepResult.reconsumed (switch_state (emit_chars m) State.rawtext_state)
      else if b == 62 then
        if is_appropriate_end_tag m then
          StepResult.consumed (advance (switch_state
            (emit_current_token (finish_tag_name m)) State.data_state))
        else StepResult.reconsumed (switch_state (emit_chars m) State.rawtext_state)
      else if isAsciiAlpha b then
        StepResult.consumed (advance (update_tag_name_hash m b))
      else StepResult.reconsumed (switch_state (emit_chars m) State.rawtext_state)
  | _ => StepResult.consumed { m with halted := true }

/-- The parsing loop over a chunk's bytes.  A reconsumed byte is
re-presented at once to the new state (in the embedded group, `reconsume`
only targets `rawtext_state`, which consumes every byte). -/
def run : Machine → List Nat → Machine
  | m, [] => m
  | m, b :: bs =>
    if m.halted then m
    else
      match stepByte m b with
      | StepResult.consumed m' => run m' bs
      | StepResult.reconsumed m' =>
        match stepByte m' b with
        | StepResult.consumed m'' => run m'' bs
        | StepResult.reconsumed m'' => run m'' bs

/-! ### Bookmarks and resumption (src/tokenizer/state_machine/mod.rs) -/

/-- `StateMachineBookmark`. -/
structure StateMachineBookmark where
  cdata_allowed : Bool
  text_parsing_mode : TextParsingMode
  last_start_tag_name_hash : Option Nat
  pos : Nat
  deriving DecidableEq

/-- The `set_cdata_allowed` setter of the machine-state field (§3). -/
def set_cdata_allowed (m : Machine) (v : Bool) : Machine := { m with cdataAllowed := v }

/-- The `set_last_start_tag_name_hash` setter. -/
def set_last_start_tag_name_hash (m : Machine) (h : Option Nat) : Machine :=
  { m with lastStartTagNameHash := h }

/-- The `set_last_text_parsing_mode` setter. -/
def set_last_text_parsing_mode (m : Machine) (mode : TextParsingMode) : Machine :=
  { m with lastTextParsingMode := mode }

/-- `set_input_cursor(Cursor::new(pos))`: place the cursor at `pos`. -/
def set_input_cursor (m : Machine) (p : Nat) : Machine := { m with pos := p }

/-- Modelled from the spec: `adjust_to_bookmark` (its implementation is in
the tokenizer's impls module, not among the sources) — re-establish the
`raw_start ≤ cursor.pos` boundary invariant of §3 at the resumption
position. -/
def adjust_to_bookmark (m : Machine) (p : Nat) : Machine := { m with rawStart := p }

/-- `switch_text_parsing_mode(mode)`: store the mode for bookmarking and
switch to the mode's entry state. -/
def switch_text_parsing_mode (m : Machine) (mode : TextParsingMode) : Machine :=
  switch_state (set_last_text_parsing_mode m mode)
    (match mode with
     | TextParsingMode.Data => State.data_state
     | TextParsingMode.PlainText => State.plaintext_state
     | TextParsingMode.RCData => State.rcdata_state
     | TextParsingMode.RawText => State.rawtext_state
     | TextParsingMode.ScriptData => State.script_data_state
     | TextParsingMode.CDataSection => State.cdata_section_state)

/-- The entry state the claim lists for each text parsing mode, stated
independently of `switch_text_parsing_mode` for comparison. -/
def specModeEntryState : TextParsingMode → State
  | TextParsingMode.Data => State.data_state
  | TextParsingMode.PlainText => State.plaintext_state
  | TextParsingMode.RCData => State.rcdata_state
  | TextParsingMode.RawText => State.rawtext_state
  | TextParsingMode.ScriptData => State.script_data_state
  | TextParsingMode.CDataSection => State.cdata_section_state

/-- The machine state just before `continue_from_bookmark` re-enters the
parsing loop: the source's setter sequence in order. -/
def resumePoint (m : Machine) (bookmark : StateMachineBookmark) : Machine :=
  set_input_cursor
    (adjust_to_bookmark
      (set_last_start_tag_name_hash
        (switch_text_parsing_mode
          (set_cdata_allowed m bookmark.cdata_allowed)
          bookmark.text_parsing_mode)
        bookmark.last_start_tag_name_hash)
      bookmark.pos)
    bookmark.pos

/-- `continue_from_bookmark(chunk, bookmark)`: restore the bookmarked
state, then run the parsing loop on the chunk. -/
def continue_from_bookmark (input : List Nat) (m : Machine)
    (bookmark : StateMachineBookmark) : Machine :=
  run (resumePoint m bookmark) input

/-! ## Claim theorems for the tokenizer -/

/-- C7: `continue_from_bookmark` restores `cdata_allowed`, the text
parsing mode (whose entry state becomes the current state, per the
Data→`data_state`, …, CDataSection→`cdata_section_state` table),
`last_start_tag_name_hash`, and the cursor position from the bookmark, and
then runs the parsing loop on the chunk from that state. -/
theorem continue_from_bookmark_spec (input : List Nat) (m : Machine)
    (bookmark : StateMachineBookmark) :
    (resumePoint m bookmark).cdataAllowed = bookmark.cdata_allowed ∧
    (resumePoint m bookmark).lastTextParsingMode = bookmark.text_parsing_mode ∧
    (resumePoint m bookmark).state = specModeEntryState bookmark.text_parsing_mode ∧
    (resumePoint m bookmark).lastStartTagNameHash = bookmark.last_start_tag_name_hash ∧
    (resumePoint m bookmark).pos = bookmark.pos ∧
    continue_from_bookmark input m bookmark = run (resumePoint m bookmark) input := by
  obtain ⟨ca, mode, lh, p⟩ := bookmark
  refine ⟨?_, ?_, ?_, ?_, ?_, rfl⟩ <;>
    cases mode <;>
      simp [resumePoint, set_input_cursor, adjust_to_bookmark,
        set_last_start_tag_name_hash, switch_text_parsing_mode, switch_state,
        set_last_text_parsing_mode, set_cdata_allowed, specModeEntryState]

/-! ### The no-panic invariant of `emit_current_token` (C9) -/

theorem is_appropriate_end_tag_some {m : Machine}
    (h : is_appropriate_end_tag m = true) :
    ∃ r v, m.currentToken = some (ShallowToken.EndTag r (some v)) := by
  unfold is_appropriate_end_tag at h
  cases htok : m.currentToken with
  | none => rw [htok] at h; exact absurd h (by simp)
  | some tok =>
    cases tok with
    | EndTag r nameHash =>
      cases nameHash with
      | none => rw [htok] at h; exact absurd h (by simp)
      | some v => exact ⟨r, v, rfl⟩
    | Character range => rw [htok] at h; exact absurd h (by simp)
    | Comment text => rw [htok] at h; exact absurd h (by simp)
    | Doctype a b c d => rw [htok] at h; exact absurd h (by simp)
    | StartTag a b c => rw [htok] at h; exact absurd h (by simp)
    | Eof => rw [htok] at h; exact absurd h (by simp)

theorem finish_tag_name_currentToken_endTag {m : Machine} {r : SliceRange} {v : Nat}
    (h : m.currentToken = some (ShallowToken.EndTag r (some v))) :
    (finish_tag_name m).currentToken =
      some (ShallowToken.EndTag (tokenPartRange m) (some v)) := by
  simp [finish_tag_name, h]

theorem emit_chars_panicked (m : Machine) : (emit_chars m).panicked = m.panicked := by
  unfold emit_chars emitWithRawExclusive
  split <;> rfl

theorem finish_tag_name_panicked (m : Machine) :
    (finish_tag_name m).panicked = m.panicked := by
  unfold finish_tag_name
  split <;> rfl

theorem update_tag_name_hash_panicked (m : Machine) (ch : Nat) :
    (update_tag_name_hash m ch).panicked = m.panicked := by
  unfold update_tag_name_hash
  split <;> rfl

/-- In every branch of the raw-text group, the `emit_current_token` action
runs only under a positive appropriate-end-tag test, so the current token
is present and its `None` panic branch is never taken. -/
theorem stepByte_preserves_no_panic (m : Machine) (b : Nat)
    (h : m.panicked = false) : (stepByte m b).machine.panicked = false := by
  cases hst : m.state
  case rawtext_state =>
    by_cases hb : (b == 60) = true
    · simp [stepByte, hst, hb, StepResult.machine, advance, switch_state,
        emit_chars_panicked, h]
    · simp [stepByte, hst, hb, StepResult.machine, advance, h]
  case rawtext_less_than_sign_state =>
    by_cases hb : (b == 47) = true
    · simp [stepByte, hst, hb, StepResult.machine, advance, switch_state, h]
    · simp [stepByte, hst, hb, StepResult.machine, switch_state,
        emit_chars_panicked, h]
  case rawtext_end_tag_open_state =>
    by_cases hb : isAsciiAlpha b = true
    · simp [stepByte, hst, hb, StepResult.machine, advance, switch_state,
        update_tag_name_hash_panicked, start_token_part, create_end_tag, h]
    · simp [stepByte, hst, hb, StepResult.machine, switch_state,
        emit_chars_panicked, h]
  case rawtext_end_tag_name_state =>
    by_cases hws : isWhitespace b = true
    · by_cases happ : is_appropriate_end_tag m = true
      · simp [stepByte, hst, hws, happ, StepResult.machine, advance, switch_state,
          finish_tag_name_panicked, h]
      · simp [stepByte, hst, hws, happ, StepResult.machine, switch_state,
          emit_chars_panicked, h]
    · by_cases h47 : (b == 47) = true
      · by_cases happ : is_appropriate_end_tag m = true
        · simp [stepByte, hst, hws, h47, happ, StepResult.machine, advance,
            switch_state, finish_tag_name_panicked, h]
        · simp [stepByte, hst, hws, h47, happ, StepResult.machine, switch_state,
            emit_chars_panicked, h]
      · by_cases h62 : (b == 62) = true
        · by_cases happ : is_appropriate_end_tag m = true
          · obtain ⟨r, v, htok⟩ := is_appropriate_end_tag_some happ
            have hft := finish_tag_name_currentToken_endTag htok
            simp [stepByte, hst, hws, h47, h62, happ, StepResult.machine, advance,
              switch_state, emit_current_token, hft, emitWithRawInclusive,
              finish_tag_name, htok, h]
          · simp [stepByte, hst, hws, h47, h62, happ, StepResult.machine,
              switch_state, emit_chars_panicked, h]
        · by_cases hα : isAsciiAlpha b = true
          · simp [stepByte, hst, hws, h47, h62, hα, StepResult.machine, advance,
              update_tag_name_hash_panicked, h]
          · simp [stepByte, hst, hws, h47, h62, hα, StepResult.machine,
              switch_state, emit_chars_panicked, h]
  all_goals simp [stepByte, hst, StepResult.machine, h]

/-- Unfolding of one loop iteration: a consumed byte advances to the next
machine; a reconsumed byte is processed again by the new state. -/
theorem run_cons (m : Machine) (b : Nat) (bs : List Nat) :
    run m (b :: bs) = if m.halted then m else
      match stepByte m b with
      | StepResult.consumed m' => run m' bs
      | StepResult.reconsumed m' => run (stepByte m' b).machine bs := by
  rw [run]
  by_cases hh : m.halted = true
  · simp [hh]
  · simp only [eq_false_of_ne_true hh, Bool.false_eq_true, if_false]
    cases stepByte m b with
    | consumed m' => rfl
    | reconsumed m' =>
      show (match stepByte m' b with
        | StepResult.consumed m2 => run m2 bs
        | StepResult.reconsumed m2 => run m2 bs) = run (stepByte m' b).machine bs
      cases stepByte m' b with
      | consumed m'' => rfl
      | reconsumed m'' => rfl

/-- C9: along every run of the machine, `emit_current_token` always finds
`current_token` present — its `unreachable!` branch (modelled by the
`panicked` flag) is never taken: every machine reachable from a
non-panicked machine is non-panicked. -/
theorem run_never_panics (bs : List Nat) :
    ∀ m : Machine, m.panicked = false → (run m bs).panicked = false := by
  induction bs with
  | nil => intro m h; exact h
  | cons b bs ih =>
    intro m h
    rw [run_cons]
    by_cases hh : m.halted = true
    · simp only [hh, if_true]
      exact h
    · simp only [eq_false_of_ne_true hh, Bool.false_eq_true, if_false]
      cases hs : stepByte m b with
      | consumed m' =>
        have hp : m'.panicked = false := by
          have hh2 := stepByte_preserves_no_panic m b h
          rw [hs] at hh2
          exact hh2
        exact ih m' hp
      | reconsumed m' =>
        have hm' : m'.panicked = false := by
          have hh2 := stepByte_preserves_no_panic m b h
          rw [hs] at hh2
          exact hh2
        show (run (stepByte m' b).machine bs).panicked = false
        exact ih (stepByte m' b).machine (stepByte_preserves_no_panic m' b hm')

/-- A fresh machine entering the raw-text mode (as
`switch_text_parsing_mode(RawText)` would leave it). -/
def freshRawTextMachine : Machine :=
  { state := State.rawtext_state, pos := 0, rawStart := 0, tokenPartStart := 0,
    currentToken := none, currentAttr := none, attrBuffer := [],
    lastStartTagNameHash := some 9691, lastTextParsingMode := TextParsingMode.RawText,
    cdataAllowed := false, isStateEnter := true, finished := false, output := [],
    panicked := false, halted := false }

/-- Witness for C9: running the fresh raw-text machine over the bytes of
`"x</div>"` never reaches the panic branch. -/
theorem run_never_panics_witness :
    (run freshRawTextMachine [120, 60, 47, 100, 105, 118, 62]).panicked = false :=
  run_never_panics [120, 60, 47, 100, 105, 118, 62] freshRawTextMachine rfl

/-! ### The appropriate-end-tag scan (C2) -/

/-- C2: in `rawtext_end_tag_name_state`, a terminator byte (whitespace,
`'/'` or `'>'`) leaves the raw-text mode if and only if the accumulated
end-tag fingerprint equals `last_start_tag_name_hash` with neither
invalid; the targets are `before_attribute_name_state`,
`self_closing_start_tag_state`, and — emitting the token —
`data_state`.  Otherwise, and on any other non-alpha byte, the
accumulated `</…` bytes `[raw_start, pos)` are emitted as a `Character`
token and the byte is reconsumed in `rawtext_state`. -/
theorem rawtext_end_tag_name_spec (m : Machine) (b : Nat) (r : SliceRange)
    (hv : Option Nat) (hst : m.state = State.rawtext_end_tag_name_state)
    (htok : m.currentToken = some (ShallowToken.EndTag r hv))
    (hraw : m.rawStart < m.pos) :
    (is_appropriate_end_tag m = true ↔
      (∃ v, hv = some v ∧ m.lastStartTagNameHash = some v)) ∧
    (isWhitespace b = true → is_appropriate_end_tag m = true →
      stepByte m b = StepResult.consumed (advance (switch_state (finish_tag_name m)
        State.before_attribute_name_state))) ∧
    (b = 47 → is_appropriate_end_tag m = true →
      stepByte m b = StepResult.consumed (advance (switch_state (finish_tag_name m)
        State.self_closing_start_tag_state))) ∧
    (b = 62 → is_appropriate_end_tag m = true →
      stepByte m b = StepResult.consumed (advance (switch_state
        (emit_current_token (finish_tag_name m)) State.data_state)) ∧
      (stepByte m b).machine.output =
        m.output ++ [ShallowToken.EndTag (tokenPartRange m) hv] ∧
      (stepByte m b).machine.state = State.data_state) ∧
    (((isWhitespace b = true ∨ b = 47 ∨ b = 62) ∧ is_appropriate_end_tag m = false) ∨
        (isWhitespace b = false ∧ b ≠ 47 ∧ b ≠ 62 ∧ isAsciiAlpha b = false) →
      stepByte m b = StepResult.reconsumed (switch_state (emit_chars m)
        State.rawtext_state) ∧
      (stepByte m b).machine.output =
        m.output ++ [ShallowToken.Character ⟨m.rawStart, m.pos⟩] ∧
      (stepByte m b).machine.state = State.rawtext_state) ∧
    ((isWhitespace b = true ∨ b = 47 ∨ b = 62) →
      ((stepByte m b).machine.state ≠ State.rawtext_state ↔
        is_appropriate_end_tag m = true)) := by
  have happ_iff : is_appropriate_end_tag m = true ↔
      (∃ v, hv = some v ∧ m.lastStartTagNameHash = some v) := by
    rw [is_appropriate_end_tag, htok]
    cases hv with
    | none => simp
    | some v =>
      cases hlast : m.lastStartTagNameHash with
      | none => simp
      | some l =>
        simp only [beq_iff_eq]
        constructor
        · intro he
          exact ⟨l, by rw [he], rfl⟩
        · rintro ⟨v', hv', hl'⟩
          cases hv'
          cases hl'
          rfl
  have hreconsume : ∀ hcond : (stepByte m b =
      StepResult.reconsumed (switch_state (emit_chars m) State.rawtext_state)),
      (stepByte m b).machine.output =
        m.output ++ [ShallowToken.Character ⟨m.rawStart, m.pos⟩] ∧
      (stepByte m b).machine.state = State.rawtext_state := by
    intro hcond
    rw [hcond]
    constructor
    · simp [StepResult.machine, switch_state, emit_chars, hraw, emitWithRawExclusive]
    · simp [StepResult.machine, switch_state]
  refine ⟨happ_iff, ?_, ?_, ?_, ?_, ?_⟩
  · intro hws happ
    simp [stepByte, hst, hws, happ]
  · intro hb happ
    subst hb
    simp [stepByte, hst, happ, isWhitespace]
  · intro hb happ
    subst hb
    have heq : stepByte m 62 = StepResult.consumed (advance (switch_state
        (emit_current_token (finish_tag_name m)) State.data_state)) := by
      simp [stepByte, hst, happ, isWhitespace]
    refine ⟨heq, ?_, ?_⟩
    · rw [heq]
      simp only [StepResult.machine, advance, switch_state]
      rw [emit_current_token]
      have hct : (finish_tag_name m).currentToken =
          some (ShallowToken.EndTag (tokenPartRange m) hv) := by
        simp [finish_tag_name, htok]
      rw [hct]
      simp [emitWithRawInclusive, finish_tag_name, htok]
    · rw [heq]
      simp [StepResult.machine, advance, switch_state]
  · intro hcase
    have hcond : stepByte m b =
        StepResult.reconsumed (switch_state (emit_chars m) State.rawtext_state) := by
      rcases hcase with ⟨hterm, happ⟩ | ⟨hws, h47, h62, hα⟩
      · rcases hterm with hws | hb | hb
        · simp [stepByte, hst, hws, happ]
        · subst hb
          simp [stepByte, hst, happ, isWhitespace]
        · subst hb
          simp [stepByte, hst, happ, isWhitespace]
      · have h47' : (b == 47) = false := by simpa using h47
        have h62' : (b == 62) = false := by simpa using h62
        simp [stepByte, hst, hws, h47', h62', hα]
    exact ⟨hcond, hreconsume hcond⟩
  · intro hterm
    by_cases happ : is_appropriate_end_tag m = true
    · constructor
      · intro _
        exact happ
      · intro _
        rcases hterm with hws | hb | hb
        · have heq : stepByte m b = StepResult.consumed (advance (switch_state
              (finish_tag_name m) State.before_attribute_name_state)) := by
            simp [stepByte, hst, hws, happ]
          rw [heq]
          simp [StepResult.machine, advance, switch_state]
        · subst hb
          have heq : stepByte m 47 = StepResult.consumed (advance (switch_state
              (finish_tag_name m) State.self_closing_start_tag_state)) := by
            simp [stepByte, hst, happ, isWhitespace]
          rw [heq]
          simp [StepResult.machine, advance, switch_state]
        · subst hb
          have heq : stepByte m 62 = StepResult.consumed (advance (switch_state
              (emit_current_token (finish_tag_name m)) State.data_state)) := by
            simp [stepByte, hst, happ, isWhitespace]
          rw [heq]
          simp [StepResult.machine, advance, switch_state]
    · have happ' : is_appropriate_end_tag m = false := by simpa using happ
      have hcond : stepByte m b =
          StepResult.reconsumed (switch_state (emit_chars m) State.rawtext_state) := by
        rcases hterm with hws | hb | hb
        · simp [stepByte, hst, hws, happ']
        · subst hb
          simp [stepByte, hst, happ', isWhitespace]
        · subst hb
          simp [stepByte, hst, happ', isWhitespace]
      rw [hcond]
      constructor
      · intro hcontra
        exact absurd (by simp [StepResult.machine, switch_state]) hcontra
      · intro hcontra
        rw [happ'] at hcontra
        exact absurd hcontra (by simp)

/-- A machine mid-scan of the end tag `</di…` in raw text: cursor at the
byte after two name characters whose fingerprint (9691) matches the
remembered last start tag. -/
def scanEndTagMachine : Machine :=
  { state := State.rawtext_end_tag_name_state, pos := 5, rawStart := 0,
    tokenPartStart := 2,
    currentToken := some (ShallowToken.EndTag ⟨0, 0⟩ (some 9691)),
    currentAttr := none, attrBuffer := [], lastStartTagNameHash := some 9691,
    lastTextParsingMode := TextParsingMode.RawText, cdataAllowed := false,
    isStateEnter := false, finished := false, output := [], panicked := false,
    halted := false }

/-- Witness for C2: on `'>'` with matching fingerprints the machine emits
the end-tag token and transitions to `data_state`. -/
theorem rawtext_end_tag_name_spec_witness :
    (stepByte scanEndTagMachine 62).machine.output =
      [ShallowToken.EndTag ⟨2, 5⟩ (some 9691)] ∧
    (stepByte scanEndTagMachine 62).machine.state = State.data_state := by
  have h := rawtext_end_tag_name_spec scanEndTagMachine 62 ⟨0, 0⟩ (some 9691)
    rfl rfl (by decide)
  obtain ⟨heq, hout, hstate⟩ := h.2.2.2.1 rfl (by decide)
  refine ⟨?_, hstate⟩
  rw [hout]
  rfl

/-! ## `Comment::set_text` (src/rewritable_units/tokens/comment.rs) -/

/-- `CommentTextError`. -/
inductive CommentTextError where
  | CommentClosingSequence
  | UnencodableCharacter
  deriving DecidableEq

/-- A comment rewritable unit: the stored text bytes and the optional raw
bytes. -/
structure Comment where
  text : List Nat
  raw : Option (List Nat)
  deriving DecidableEq

/-- Whether `pat` is a prefix of `l`. -/
def listStarts : List Nat → List Nat → Bool
  | [], _ => true
  | _ :: _, [] => false
  | p :: ps, x :: xs => p == x && listStarts ps xs

/-- Whether `pat` occurs as a contiguous subsequence of `l`
(`str::find` of the source, specialized to containment). -/
def listHas (pat : List Nat) : List Nat → Bool
  | [] => listStarts pat []
  | x :: xs => listStarts pat (x :: xs) || listHas pat xs

/-- `text.find("-->")some`: the text contains the comment closing
sequence `-->` (bytes `45, 45, 62`). -/
def containsClosingSeq (text : List Nat) : Bool := listHas [45, 45, 62] text

/-- `Comment::set_text`: reject text containing `-->`; otherwise encode it
without replacements (`enc` stands for `Bytes::from_str_without_replacements`
with the comment's encoding, `none` meaning an unencodable character) and
on success replace the stored text and drop the raw bytes.  The second
component is the comment after the call — unchanged on any error. -/
def Comment.set_text (enc : List Nat → Option (List Nat)) (c : Comment)
    (text : List Nat) : Except CommentTextError Unit × Comment :=
  if containsClosingSeq text then
    (Except.error CommentTextError.CommentClosingSequence, c)
  else
    match enc text with
    | some bytes => (Except.ok (), { text := bytes, raw := none })
    | none => (Except.error CommentTextError.UnencodableCharacter, c)

/-- C8: `set_text` fails with `CommentClosingSequence` exactly on text
containing `-->`; otherwise it fails with `UnencodableCharacter` exactly
when the text cannot be encoded without replacements; it succeeds in the
remaining cases, and exactly then replaces the stored text and clears the
raw bytes — on any error the comment is unchanged. -/
theorem comment_set_text_spec (enc : List Nat → Option (List Nat)) (c : Comment)
    (text : List Nat) :
    ((Comment.set_text enc c text).1 =
        Except.error CommentTextError.CommentClosingSequence ↔
      containsClosingSeq text = true) ∧
    ((Comment.set_text enc c text).1 =
        Except.error CommentTextError.UnencodableCharacter ↔
      (containsClosingSeq text = false ∧ enc text = none)) ∧
    ((Comment.set_text enc c text).1 = Except.ok () ↔
      (containsClosingSeq text = false ∧ (enc text).isSome = true)) ∧
    (∀ e, (Comment.set_text enc c text).1 = Except.error e →
      (Comment.set_text enc c text).2 = c) ∧
    ((Comment.set_text enc c text).1 = Except.ok () →
      (Comment.set_text enc c text).2.raw = none ∧
      some (Comment.set_text enc c text).2.text = enc text) := by
  by_cases hseq : containsClosingSeq text = true
  · refine ⟨by simp [Comment.set_text, hseq], ?_, ?_, ?_, ?_⟩
    · simp [Comment.set_text, hseq]
    · simp [Comment.set_text, hseq]
    · intro e _
      simp [Comment.set_text, hseq]
    · intro hok
      rw [Comment.set_text, if_pos hseq] at hok
      exact absurd hok (by simp)
  · have hseq' : containsClosingSeq text = false := by simpa using hseq
    cases henc : enc text with
    | some bytes =>
      refine ⟨?_, ?_, ?_, ?_, ?_⟩
      · simp [Comment.set_text, hseq', henc]
      · simp [Comment.set_text, hseq', henc]
      · simp [Comment.set_text, hseq', henc]
      · intro e he
        rw [Comment.set_text, if_neg (by simp [hseq'])] at he
        rw [henc] at he
        exact absurd he (by simp)
      · intro _
        simp [Comment.set_text, hseq', henc]
    | none =>
      refine ⟨?_, ?_, ?_, ?_, ?_⟩
      · simp [Comment.set_text, hseq', henc]
      · simp [Comment.set_text, hseq', henc]
      · simp [Comment.set_text, hseq', henc]
      · intro e _
        simp [Comment.set_text, hseq', henc]
      · intro hok
        rw [Comment.set_text, if_neg (by simp [hseq'])] at hok
        rw [henc] at hok
        exact absurd hok (by simp)

/-- Witness for C8: text containing `-->` is rejected with the comment
unchanged; plain text is accepted, with the raw bytes dropped. -/
theorem comment_set_text_spec_witness :
    (Comment.set_text some ⟨[120], some [120]⟩ [45, 45, 62]).1 =
      Except.error CommentTextError.CommentClosingSequence ∧
    (Comment.set_text some ⟨[120], some [120]⟩ [45, 45, 62]).2 =
      ⟨[120], some [120]⟩ ∧
    (Comment.set_text some ⟨[120], some [120]⟩ [121]).2.raw = none := by
  have h1 := comment_set_text_spec some ⟨[120], some [120]⟩ [45, 45, 62]
  have h2 := comment_set_text_spec some ⟨[120], some [120]⟩ [121]
  have he := h1.1.mpr (by decide)
  refine ⟨he, h1.2.2.2.1 CommentTextError.CommentClosingSequence he, ?_⟩
  exact (h2.2.2.2.2 (h2.2.2.1.mpr (by decide))).1

/-! ## Attribute actions and end tags (C10) -/

/-- The attribute-machinery actions the attribute states execute. -/
inductive AttrAction where
  | start
  | finishName
  | finishValue
  | finish
  deriving DecidableEq

/-- Dispatch of an attribute action on the machine. -/
def applyAttrAction (m : Machine) : AttrAction → Machine
  | AttrAction.start => start_attr m
  | AttrAction.finishName => finish_attr_name m
  | AttrAction.finishValue => finish_attr_value m
  | AttrAction.finish => finish_attr m

theorem applyAttrAction_endTag_id {m : Machine} {r : SliceRange} {hv : Option Nat}
    (htok : m.currentToken = some (ShallowToken.EndTag r hv))
    (hattr : m.currentAttr = none) (a : AttrAction) : applyAttrAction m a = m := by
  cases a with
  | start => simp [applyAttrAction, start_attr, htok]
  | finishName => simp [applyAttrAction, finish_attr_name, hattr]
  | finishValue => simp [applyAttrAction, finish_attr_value, hattr]
  | finish => simp [applyAttrAction, finish_attr, hattr]

/-- C10: while the current token is an `EndTag` and no attribute is in
flight, any sequence of attribute actions leaves the shared attribute
buffer (and the current token and current attribute) exactly as it was:
`start_attr` creates an attribute only for start tags, and `finish_attr`
pushes only an existing attribute. -/
theorem end_tag_preserves_attr_buffer (acts : List AttrAction) :
    ∀ (m : Machine) (r : SliceRange) (hv : Option Nat),
      m.currentToken = some (ShallowToken.EndTag r hv) → m.currentAttr = none →
      (acts.foldl applyAttrAction m).attrBuffer = m.attrBuffer ∧
      (acts.foldl applyAttrAction m).currentAttr = none ∧
      (acts.foldl applyAttrAction m).currentToken = m.currentToken := by
  induction acts with
  | nil => intro m r hv htok hattr; exact ⟨rfl, hattr, rfl⟩
  | cons a acts ih =>
    intro m r hv htok hattr
    rw [List.foldl_cons, applyAttrAction_endTag_id htok hattr a]
    exact ih m r hv htok hattr

/-- A machine parsing the end tag `</div …` with two attributes of an
earlier start tag still in the shared buffer. -/
def endTagAttrMachine : Machine :=
  { state := State.before_attribute_name_state, pos := 6, rawStart := 0,
    tokenPartStart := 2,
    currentToken := some (ShallowToken.EndTag ⟨2, 5⟩ (some 9691)),
    currentAttr := none,
    attrBuffer := [⟨⟨1, 2⟩, ⟨3, 4⟩⟩, ⟨⟨5, 6⟩, ⟨7, 8⟩⟩],
    lastStartTagNameHash := some 9691,
    lastTextParsingMode := TextParsingMode.Data, cdataAllowed := false,
    isStateEnter := false, finished := false, output := [], panicked := false,
    halted := false }

/-- Witness for C10: a start/finish-name/finish cycle on an end tag leaves
the two buffered attributes untouched. -/
theorem end_tag_preserves_attr_buffer_witness :
    (([AttrAction.start, AttrAction.finishName, AttrAction.finish].foldl
        applyAttrAction endTagAttrMachine)).attrBuffer =
      [⟨⟨1, 2⟩, ⟨3, 4⟩⟩, ⟨⟨5, 6⟩, ⟨7, 8⟩⟩] :=
  (end_tag_preserves_attr_buffer [AttrAction.start, AttrAction.finishName,
    AttrAction.finish] endTagAttrMachine ⟨2, 5⟩ (some 9691) rfl rfl).1

end LolHtml

